import Mathlib

/-
Verification of the nx_io.readlines delimited line reader.

The development shallowly embeds src/nx_io/readlines.py.  Streams are
modelled as lists of units (characters or bytes); a stream read of n
units returns the first n units and the remainder (a Python stream read
of a non-negative size returns at most that much data, and a read of a
negative size returns everything, as io.StringIO/io.BytesIO do).  The
reader state mirrors the attributes of the ReadLines object: the fill
buffer, the consumed index, the end-of-file flag, the cached peeked
line, the delimiter, the strip flag and the block size.  Loops that in
Python can only terminate because every fill consumes stream data are
written with an explicit fuel argument computed from the amount of
remaining stream data, which always dominates the number of fills the
Python loop can perform.  Positions are natural numbers; pattern
(regex) delimiters are modelled as search functions returning an
optional match span, and theorems about them carry the span ordering
guarantees that the re module provides for genuine regular expressions.
-/

section Model

variable {α : Type} [DecidableEq α]

/-- Read of size n from a stream holding the units s: returns the chunk
and the rest.  A negative size returns everything, as Python file reads
do. -/
def streamRead (s : List α) (n : Int) : List α × List α :=
  if n < 0 then (s, []) else (s.take n.toNat, s.drop n.toNat)

/-- Ceiling division of an integer by a natural number, the value of
Python math.ceil(e / b) for b positive. -/
def ceilDiv (e : Int) (b : Nat) : Int :=
  -((-e).ediv b)

/-- Python slice l[i:j] for natural indices. -/
def pySlice (l : List α) (i j : Nat) : List α := (l.take j).drop i

/-- Position of the first occurrence of d as a contiguous run inside s
(the value of Python s.find(d) restricted to existence), as an offset
into s. -/
def litFindFrom (d : List α) : List α → Option Nat
  | [] => if d.isPrefixOf [] then some 0 else none
  | a :: t =>
    if d.isPrefixOf (a :: t) then some 0
    else (litFindFrom d t).map (· + 1)

/-- A delimiter is either a str/bytes literal or a regex-like object,
modelled by its search function: search buf pos returns the span of the
first match of the pattern in buf at or after pos, if any (re module
semantics; the endpos of such a match is the buffer length). -/
inductive Delim (α : Type) where
  | lit (d : List α)
  | pat (search : List α → Nat → Option (Nat × Nat))

/-- Outcome of one delimiter search inside the _get_next_line loop:
either a final match (delimiter start and line end), or no final match
together with the search offset to back off by on the next fill and the
provisional delimiter start if a match touched the buffer end. -/
inductive SRes where
  | found (ds e : Nat)
  | cont (soff : Nat) (ds : Option Nat)
deriving DecidableEq

/-- One delimiter search of the _get_next_line loop body
(readlines.py lines 285-333), on buffer buf with consumed index idx,
searching from sIdx.  For a literal the find method is used; a match is
always final.  For a pattern, a match not ending at the buffer end is
final; a match ending there is provisional (search offset is the match
length, the match start is remembered); with no match the whole
unconsumed buffer is the back-off. -/
def searchStep (dl : Delim α) (buf : List α) (idx sIdx : Nat) : SRes :=
  match dl with
  | .lit d =>
    match litFindFrom d (buf.drop sIdx) with
    | some q => .found (sIdx + q) (sIdx + q + d.length)
    | none => .cont (d.length - 1) none
  | .pat p =>
    match p buf sIdx with
    | some (s, e) =>
      if e ≠ buf.length then .found s e else .cont (e - s) (some s)
    | none => .cont (buf.length - idx) none

/-- The _Reader stream wrapper in the direct (form=None) case, where
read delegates to the underlying stream.  orig is the stream content at
the recorded start offset (used by reset), seekable records whether the
stream supports seeking. -/
structure Reader (α : Type) where
  stream : List α
  orig : List α
  seekable : Bool

/-- State of a ReadLines object: the wrapped stream, the fill buffer,
the index of the first unconsumed unit, the end-of-file flag, the
cached peeked line with its delimiter offset, the delimiter, the
strip_delimiter flag, the fill block size and the stream mode flag. -/
structure ReadLines (α : Type) where
  fobj : Reader α
  buf : List α
  idx : Nat
  eof : Bool
  line : Option (List α × Nat)
  delimiter : Delim α
  strip_delimiter : Bool
  block_size : Nat
  binary : Bool

/-- The data the reader has not yet consumed: the unconsumed part of
the buffer followed by the stream remainder (ignored once the eof flag
is set, since the reader never reads again after it). -/
def ReadLines.pend (r : ReadLines α) : List α :=
  r.buf.drop r.idx ++ (if r.eof then [] else r.fobj.stream)

/-- The _get_next_line loop (readlines.py lines 282-371), with the
loop state (buffer, consumed index, search index, eof flag, stream
remainder) explicit and a fuel argument bounding the number of
iterations; getNextLine supplies fuel that always suffices, since every
iteration that does not return either consumes stream data or sets the
eof flag, after which the next iteration returns. -/
def gnlLoopF (dl : Delim α) (bs : Nat) :
    Nat → List α → Nat → Nat → Bool → List α →
    Option (List α × Nat) × List α × Nat × Bool × List α
  | 0, buf, idx, _, eof, stream => (none, buf, idx, eof, stream)
  | fuel + 1, buf, idx, sIdx, eof, stream =>
    match searchStep dl buf idx sIdx with
    | .found ds e => (some (pySlice buf idx e, ds - idx), buf, e, eof, stream)
    | .cont soff dsOpt =>
      if eof then
        if idx < buf.length then
          (some (buf.drop idx, dsOpt.getD buf.length - idx), [], 0, eof, stream)
        else
          (none, [], 0, eof, stream)
      else
        let buf' := buf.drop idx
        let sIdx' := buf'.length - soff
        let more := (streamRead stream bs).1
        gnlLoopF dl bs fuel (buf' ++ more) 0 sIdx' more.isEmpty
          (streamRead stream bs).2

/-- ReadLines._get_next_line: runs the search loop from the current
state (searching starts at the consumed index) and writes the updated
buffer, index, eof flag and stream back into the reader.  Returns the
line together with the offset of the delimiter inside it (the line
length when no delimiter terminates it), or none when the stream is
exhausted of lines (the StreamExhausted exception). -/
def ReadLines.getNextLine (r : ReadLines α) :
    Option (List α × Nat) × ReadLines α :=
  let out := gnlLoopF r.delimiter r.block_size (r.fobj.stream.length + 2)
    r.buf r.idx r.idx r.eof r.fobj.stream
  (out.1,
   { r with buf := out.2.1, idx := out.2.2.1, eof := out.2.2.2.1,
            fobj := { r.fobj with stream := out.2.2.2.2 } })

/-- ReadLines._get_line: serve the cached line if one exists, else
compute the next line and cache it unless it is being consumed; the
strip_delimiter flag is applied at return time only. -/
def ReadLines.getLine (r : ReadLines α) (consume : Bool) :
    Option (List α) × ReadLines α :=
  match r.line with
  | some (l, dpos) =>
    let r' := if consume then { r with line := none } else r
    (some (if r.strip_delimiter then l.take dpos else l), r')
  | none =>
    match r.getNextLine with
    | (none, r') => (none, r')
    | (some (l, dpos), r') =>
      let r'' := { r' with line := if consume then none else some (l, dpos) }
      (some (if r.strip_delimiter then l.take dpos else l), r'')

/-- ReadLines.__next__: consume and return the next line; none is the
StopIteration signal. -/
def ReadLines.nextLine (r : ReadLines α) : Option (List α) × ReadLines α :=
  r.getLine true

/-- Exhausting the iterator: collect the lines produced by repeated
next() calls, with a fuel bound on their number. -/
def iterate : Nat → ReadLines α → List (List α)
  | 0, _ => []
  | fuel + 1, r =>
    match r.nextLine with
    | (none, _) => []
    | (some l, r') => l :: iterate fuel r'

/-- The full line sequence produced by exhausting the reader.  Each
produced line consumes at least one pending unit for any valid (non
zero-length-matching) delimiter, so the fuel suffices. -/
def linesOf (r : ReadLines α) : List (List α) :=
  iterate (r.buf.length + r.fobj.stream.length + 1) r

/-- The fill loop of ReadLines.peek (readlines.py lines 188-203):
while eof has not been observed and the buffer does not hold exactly
the requested amount, read ceil(missing / block_size) * block_size more
units; an empty read sets the eof flag.  Fuel bounds the iterations;
peek supplies fuel that always suffices. -/
def peekLoopF (bs size : Nat) :
    Nat → List α → Bool → List α → List α × Bool × List α
  | 0, buf, eof, stream => (buf, eof, stream)
  | fuel + 1, buf, eof, stream =>
    let extra : Int := (size : Int) - buf.length
    if eof = true ∨ extra = 0 then (buf, eof, stream)
    else
      let toRead := ceilDiv extra bs * bs
      let rd := streamRead stream toRead
      if rd.1.isEmpty then (buf, true, rd.2)
      else peekLoopF bs size fuel (buf ++ rd.1) eof rd.2

/-- ReadLines.peek: with no size, peek at the forth-coming line (empty
when exhausted) without consuming it; with a size, a negative value is
an error raised before any stream access, zero returns empty
immediately, and otherwise the buffer is truncated to the unconsumed
data, filled until it covers the request or eof, stored back, and its
prefix of the requested size returned. -/
def ReadLines.peek (r : ReadLines α) (size : Option Int) :
    Except String (List α × ReadLines α) :=
  match size with
  | none =>
    match r.getLine false with
    | (none, r') => .ok ([], r')
    | (some l, r') => .ok (l, r')
  | some sz =>
    if sz < 0 then .error "invalid size"
    else if sz = 0 then .ok ([], r)
    else
      let out := peekLoopF r.block_size sz.toNat (r.fobj.stream.length + 2)
        (r.buf.drop r.idx) r.eof r.fobj.stream
      .ok (out.1.take sz.toNat,
        { r with buf := out.1, idx := 0, eof := out.2.1,
                 fobj := { r.fobj with stream := out.2.2 } })

/-- ReadLines construction (readlines.py lines 400-449) over a stream
holding content, after the delimiter argument passed validation: wrap
the stream, perform the initial fill of one block, set eof when it
comes back empty.  sk records stream seekability and bin the stream
mode (in Python the latter is the runtime type of the data read). -/
def mkReadLines (content : List α) (d : Delim α) (strip : Bool) (bs : Nat)
    (sk bin : Bool) : ReadLines α :=
  let buf := content.take bs
  { fobj := { stream := content.drop bs, orig := content, seekable := sk },
    buf := buf, idx := 0, eof := buf.isEmpty, line := none,
    delimiter := d, strip_delimiter := strip, block_size := bs,
    binary := bin }

/-- ReadLines.reset: _Reader.reset raises when the stream is not
seekable (recorded start offset absent), leaving everything untouched;
otherwise the stream is re-sought to its start offset and the reader
reinitialized with its current delimiter, strip flag and block size. -/
def ReadLines.reset (r : ReadLines α) : Option String × ReadLines α :=
  if r.fobj.seekable then
    (none, mkReadLines r.fobj.orig r.delimiter r.strip_delimiter r.block_size
      true r.binary)
  else
    (some "reset on non-seekable steam object", r)

/-- Consume n lines with next() calls, keeping the final state. -/
def consumeN : Nat → ReadLines α → ReadLines α
  | 0, r => r
  | n + 1, r => consumeN n r.nextLine.2

/-- A value assigned to the delimiter property, as Python sees it: a
str or bytes literal (isBytes records which runtime type it has), an
object with a search method (raisesTypeError records whether calling
search with text of the stream mode raises TypeError, which happens
when the pattern was compiled for the other mode), or any other
object. -/
inductive DelimArg (α : Type) where
  | lit (isBytes : Bool) (d : List α)
  | pat (raisesTypeError : Bool)
      (search : List α → Nat → Option (Nat × Nat))
  | other

/-- The probe text used by the delimiter setter, as units of the stream
mode: the Python value is b'test' for binary streams and 'test'
otherwise. -/
class TestText (α : Type) where
  text : List α

instance : TestText Char := ⟨['t', 'e', 's', 't']⟩

instance : TestText Nat := ⟨[116, 101, 115, 116]⟩

/-- The delimiter property setter (readlines.py lines 379-398):
literals must be non-empty and of the stream mode; objects with a
search method are probed on the test text, a TypeError means a mode
mismatch and a zero-length probe match is rejected; anything else is an
unknown delimiter type.  The delimiter attribute is assigned only after
all checks pass, so a failing assignment leaves the state untouched. -/
def setDelimiter [TestText α] (r : ReadLines α) (v : DelimArg α) :
    Option String × ReadLines α :=
  match v with
  | .lit ib d =>
    if d.isEmpty then (some "non-zero match delimiter is required", r)
    else if ib ≠ r.binary then
      (some "delimiter type must match stream mode", r)
    else (none, { r with delimiter := .lit d })
  | .pat te p =>
    if te then (some "delimiter type must match stream mode", r)
    else
      match p (TestText.text) 0 with
      | some (s, e) =>
        if s = e then (some "non-zero match delimiter is required", r)
        else (none, { r with delimiter := .pat p })
      | none => (none, { r with delimiter := .pat p })
  | .other => (some "unknown type of delimiter", r)

/-- Well-formedness of a delimiter as the setter and the re module
guarantee it: a literal is non-empty; a pattern search only returns
spans lying between the search position and the buffer end. -/
def WfDelim : Delim α → Prop
  | .lit d => d ≠ []
  | .pat p => ∀ buf i s e, p buf i = some (s, e) →
      i ≤ s ∧ s ≤ e ∧ e ≤ buf.length

/-- Specification-side splitting of a unit sequence at the leftmost
occurrences of a literal delimiter, pairing every piece with the offset
at which the delimiter starts inside it (the piece length when the
final piece has no delimiter).  This is the reference the reader is
compared against; it is not part of the source. -/
def splitParts (d : List α) (s : List α) : List (List α × Nat) :=
  if hs : s.isEmpty then []
  else
    match litFindFrom d s with
    | some i =>
      if hd : d.length = 0 then [(s, s.length)]
      else (s.take (i + d.length), i) :: splitParts d (s.drop (i + d.length))
    | none => [(s, s.length)]
termination_by s.length
decreasing_by
  simp only [List.length_drop]
  have h1 : 0 < s.length := by
    cases s <;> simp_all
  omega

/-- Formatting applied to a computed (line, delimiter offset) pair at
return time: the delimiter is cut off exactly when the strip flag is
set. -/
def fmtLine (strip : Bool) (p : List α × Nat) : List α :=
  if strip then p.1.take p.2 else p.1

/-- Reader state after a peek of n units (the state component of
peek). -/
def afterPeek (r : ReadLines α) (n : Int) : ReadLines α :=
  match r.peek (some n) with
  | .ok (_, r') => r'
  | .error _ => r

/-- Value returned by a peek of n units. -/
def peekVal (r : ReadLines α) (n : Int) : List α :=
  match r.peek (some n) with
  | .ok (v, _) => v
  | .error _ => []

/-- Reader state after a line peek (peek with no size). -/
def afterPeekLine (r : ReadLines α) : ReadLines α :=
  (r.getLine false).2

/-- Value returned by a line peek (empty when exhausted). -/
def peekLineVal (r : ReadLines α) : List α :=
  ((r.getLine false).1).getD []

end Model

/-- A regex-like object searching for the literal text ab, used as a
concrete pattern delimiter: every match it reports has width 2. -/
def pAB : List Char → Nat → Option (Nat × Nat) :=
  fun buf i => (litFindFrom ['a', 'b'] (buf.drop i)).map
    (fun q => (i + q, i + q + 2))

/-- A regex-like object behaving like the greedy pattern for a
non-empty run of tildes: the leftmost run at or after the search
position, extended as far as possible. -/
def tildeRun : List Char → Nat → Option (Nat × Nat) :=
  fun buf i =>
    match litFindFrom ['~'] (buf.drop i) with
    | none => none
    | some q =>
      some (i + q, i + q + ((buf.drop (i + q)).takeWhile (· = '~')).length)

/-- A search function whose result depends on the buffer length: it
matches the single first unit exactly when the buffer holds two units
and the search starts at its beginning.  It has a search method and
finds no match on the probe text, so the delimiter setter accepts it;
it is not a function of the stream content, which no genuine regular
expression search can fail to be. -/
def pLen2 : List Char → Nat → Option (Nat × Nat) :=
  fun buf i => if buf.length = 2 ∧ i = 0 then some (0, 1) else none

/-- A search function that reports the one-unit match (0, 1) on the
probe text but a zero-length match everywhere else: a pattern that can
match zero length yet passes the probe validation. -/
def pZeroElse : List Char → Nat → Option (Nat × Nat) :=
  fun buf i =>
    if buf = ['t', 'e', 's', 't'] then some (0, 1) else some (i, i)

/-- A search function reporting a zero-length match everywhere,
including on the probe text: the delimiter setter rejects it. -/
def pZeroProbe : List Char → Nat → Option (Nat × Nat) :=
  fun _ i => some (i, i)

/-
Model of the normalizing reader path of _Reader.read (form set, text
mode), used by claim C9.  unicodedata.combining and
unicodedata.normalize are Python standard library functions outside
this repository; they are modelled here restricted to the characters
appearing in this development: U+0308 (combining diaeresis, combining
class 230) is the only character with non-zero combining class used,
and NFC composition on these characters composes exactly the pair
o, U+0308 into U+00F6.
-/

/-- Whether unicodedata.combining is non-zero, on the characters used
here: true exactly for U+0308. -/
def pyCombining (c : Char) : Bool := c = '̈'

/-- unicodedata.normalize with form NFC, restricted to the characters
used here: composes each adjacent pair o, U+0308 into U+00F6 and
leaves everything else unchanged. -/
def nfc : List Char → List Char
  | [] => []
  | 'o' :: '̈' :: rest => 'ö' :: nfc rest
  | c :: rest => c :: nfc rest

/-- The SCAN_SIZE constant of readlines.py. -/
def SCAN_SIZE : Nat := 512

/-- A _Reader with form NFC over a text stream: the remaining stream
content and the carry-over of extra data read past the last boundary
(_prev_extra). -/
structure NReader where
  stream : List Char
  prevExtra : List Char

/-- The read-ahead loop of _Reader.read (readlines.py lines 78-108):
while the extra data holds no non-combining character, absorb it into
the buffer and read another scan block; when a non-combining character
is found, absorb the extra data before it and carry the rest over.
Returns the final buffer, the carry-over and the stream remainder.
Fuel bounds iterations; the caller supplies fuel that always suffices
since every repeated read consumes stream data. -/
def scanLoopF : Nat → List Char → List Char → List Char →
    List Char × List Char × List Char
  | 0, buf, _, stream => (buf, [], stream)
  | fuel + 1, buf, extra, stream =>
    if extra.isEmpty then (buf, [], stream)
    else
      match extra.findIdx? (fun c => ¬ pyCombining c) with
      | some i => (buf ++ extra.take i, extra.drop i, stream)
      | none =>
        let rd := streamRead stream (SCAN_SIZE : Int)
        scanLoopF fuel (buf ++ extra) rd.1 rd.2

/-- _Reader.read with form NFC on a text stream: serve the carry-over
first (reading more only when it cannot satisfy the request), read
ahead until the chunk boundary does not split a combining sequence, and
normalize the accumulated chunk. -/
def NReader.read (r : NReader) (size : Int) : List Char × NReader :=
  let st :=
    if ¬ r.prevExtra.isEmpty then
      if (r.prevExtra.length : Int) < size then
        let rd := streamRead r.stream (size - r.prevExtra.length)
        (r.prevExtra ++ rd.1, rd.2)
      else (r.prevExtra, r.stream)
    else streamRead r.stream size
  let rd0 := streamRead st.2 (SCAN_SIZE : Int)
  let fin := scanLoopF (st.2.length + 2) st.1 rd0.1 rd0.2
  (nfc fin.1, { stream := fin.2.2, prevExtra := fin.2.1 })

/-- A ReadLines object whose stream is wrapped in a normalizing
_Reader with form NFC: same attributes as ReadLines, with the fills
going through NReader.read. -/
structure ReadLinesN where
  src : NReader
  buf : List Char
  idx : Nat
  eof : Bool
  line : Option (List Char × Nat)
  delimiter : Delim Char
  strip_delimiter : Bool
  block_size : Nat

/-- The _get_next_line loop for a reader over a normalizing _Reader:
identical to gnlLoopF except that fills call NReader.read. -/
def gnlLoopN (dl : Delim Char) (bs : Nat) :
    Nat → List Char → Nat → Nat → Bool → NReader →
    Option (List Char × Nat) × List Char × Nat × Bool × NReader
  | 0, buf, idx, _, eof, src => (none, buf, idx, eof, src)
  | fuel + 1, buf, idx, sIdx, eof, src =>
    match searchStep dl buf idx sIdx with
    | .found ds e => (some (pySlice buf idx e, ds - idx), buf, e, eof, src)
    | .cont soff dsOpt =>
      if eof then
        if idx < buf.length then
          (some (buf.drop idx, dsOpt.getD buf.length - idx), [], 0, eof, src)
        else
          (none, [], 0, eof, src)
      else
        let buf' := buf.drop idx
        let sIdx' := buf'.length - soff
        let rd := src.read (bs : Int)
        gnlLoopN dl bs fuel (buf' ++ rd.1) 0 sIdx' rd.1.isEmpty rd.2

/-- ReadLines._get_next_line over a normalizing _Reader. -/
def ReadLinesN.getNextLine (r : ReadLinesN) :
    Option (List Char × Nat) × ReadLinesN :=
  let out := gnlLoopN r.delimiter r.block_size
    (r.src.stream.length + r.src.prevExtra.length + 2)
    r.buf r.idx r.idx r.eof r.src
  (out.1,
   { r with buf := out.2.1, idx := out.2.2.1, eof := out.2.2.2.1,
            src := out.2.2.2.2 })

/-- ReadLines.__next__ over a normalizing _Reader (no cached line is
ever present in the runs considered, so _get_line reduces to
_get_next_line plus strip formatting). -/
def ReadLinesN.nextLine (r : ReadLinesN) : Option (List Char) × ReadLinesN :=
  match r.line with
  | some (l, dpos) =>
    (some (if r.strip_delimiter then l.take dpos else l),
     { r with line := none })
  | none =>
    match r.getNextLine with
    | (none, r') => (none, r')
    | (some (l, dpos), r') =>
      (some (if r.strip_delimiter then l.take dpos else l), r')

/-- Exhausting the normalizing reader, with a fuel bound. -/
def iterateN : Nat → ReadLinesN → List (List Char)
  | 0, _ => []
  | fuel + 1, r =>
    match r.nextLine with
    | (none, _) => []
    | (some l, r') => l :: iterateN fuel r'

/-- The full line sequence of the normalizing reader. -/
def linesOfN (r : ReadLinesN) : List (List Char) :=
  iterateN (r.buf.length + r.src.stream.length + r.src.prevExtra.length + 1) r

/-- Construction of ReadLines over a text stream with form NFC: wrap
the stream in a normalizing _Reader and perform the initial fill of
one block. -/
def mkReadLinesN (content : List Char) (d : Delim Char) (strip : Bool)
    (bs : Nat) : ReadLinesN :=
  let rd := NReader.read { stream := content, prevExtra := [] } (bs : Int)
  { src := rd.2, buf := rd.1, idx := 0, eof := rd.1.isEmpty, line := none,
    delimiter := d, strip_delimiter := strip, block_size := bs }

/-- The input of claim C9: abco followed by the combining diaeresis,
then a tilde delimiter and abc. -/
def inputC9 : List Char := ['a', 'b', 'c', 'o', '̈', '~', 'a', 'b', 'c']

/-- The line sequence claim C9 expects: normalization composes the
pair into U+00F6 regardless of where read boundaries fall. -/
def targetC9 : List (List Char) :=
  [['a', 'b', 'c', 'ö', '~'], ['a', 'b', 'c']]

/-
Theorems.
-/

/-- C1: with the fixed literal delimiter tilde and a block size larger
than the input, iterating the reader over abc~def~ghi~jkl yields the
four delimiter-terminated lines, and with strip_delimiter set it
yields the same lines with the delimiter removed. -/
theorem claim_C1 :
    linesOf (mkReadLines "abc~def~ghi~jkl".data (Delim.lit ['~']) false 16
        true false) =
      ["abc~".data, "def~".data, "ghi~".data, "jkl".data] ∧
    linesOf (mkReadLines "abc~def~ghi~jkl".data (Delim.lit ['~']) true 16
        true false) =
      ["abc".data, "def".data, "ghi".data, "jkl".data] := by
  decide

/-- C5: evaluation of the code at the failing input.  For the stream
abcdef with delimiter tilde and block size 3, next() alone returns the
whole stream abcdef; but peek(1) makes the fill loop execute a read of
size ceil(-2 / 3) * 3 = 0, whose empty result wrongly sets the eof
flag, so the next() after the peek returns only the buffered abc: the
peek advanced the consumption state, contradicting the claim. -/
theorem claim_C5 :
    ((mkReadLines "abcdef".data (Delim.lit ['~']) false 3 true
        false).nextLine).1 = some "abcdef".data ∧
    peekVal (mkReadLines "abcdef".data (Delim.lit ['~']) false 3 true false)
        1 = ['a'] ∧
    ((afterPeek (mkReadLines "abcdef".data (Delim.lit ['~']) false 3 true
        false) 1).nextLine).1 = some "abc".data := by
  decide

/-- C2 counterexample: the claim fails as stated.  First, a regex-like
delimiter object (accepted by the setter, since it has a search method
and finds no match on the probe text) whose result depends on the
buffer length makes the reader produce three lines at block size 1 but
one line at block size 3 for the same stream abc.  Second, even for a
literal delimiter the sequence differs between block sizes 0 and 1,
since a zero block size makes the initial fill empty and the reader
yields nothing. -/
theorem claim_C2_counterexample :
    linesOf (mkReadLines "abc".data (Delim.pat pLen2) false 1 true false) =
      [['a'], ['b'], ['c']] ∧
    linesOf (mkReadLines "abc".data (Delim.pat pLen2) false 3 true false) =
      [['a', 'b', 'c']] ∧
    (setDelimiter (mkReadLines "abc".data (Delim.lit ['~']) false 1 true
        false) (DelimArg.pat false pLen2)).1 = none ∧
    linesOf (mkReadLines ['a'] (Delim.lit ['~']) false 0 true false) = [] ∧
    linesOf (mkReadLines ['a'] (Delim.lit ['~']) false 1 true false) =
      [['a']] := by
  decide

/-- C4 counterexample: for a pattern delimiter with no match in the
buffer, the search offset produced for the next fill is the whole
unconsumed buffer (here 10 units), not a window bounded by the match
size (every match of this pattern has width 2), so the re-scanned
region after the fill is the whole unconsumed buffer. -/
theorem claim_C4_counterexample :
    searchStep (Delim.pat pAB) (List.replicate 10 'c') 0 0 =
      SRes.cont 10 none ∧
    pAB ['x', 'a', 'b'] 0 = some (1, 3) ∧ (2 : Nat) < 10 := by
  decide

/-- C6 counterexample: immediately after peek() of the line def~ (no
intervening next()), peek(3) returns ghi, the units after the cached
pending line rather than its initial units; ghi is not a prefix of the
concatenation def~ghi~ of the lines still to be returned. -/
theorem claim_C6_counterexample :
    peekLineVal (mkReadLines "def~ghi~".data (Delim.lit ['~']) false 100
        true false) = "def~".data ∧
    peekVal (afterPeekLine (mkReadLines "def~ghi~".data (Delim.lit ['~'])
        false 100 true false)) 3 = "ghi".data ∧
    (peekVal (afterPeekLine (mkReadLines "def~ghi~".data (Delim.lit ['~'])
        false 100 true false)) 3).isPrefixOf
      ((linesOf (afterPeek (afterPeekLine (mkReadLines "def~ghi~".data
        (Delim.lit ['~']) false 100 true false)) 3)).flatten) = false := by
  decide

/-- C7 counterexample: a pattern that can match zero length (it
matches the empty span at any position of any buffer other than the
probe text) is accepted by the delimiter setter, because the setter
only rejects patterns whose match on the probe text test has zero
length. -/
theorem claim_C7_counterexample :
    (setDelimiter (mkReadLines ['x'] (Delim.lit ['~']) false 1 true false)
        (DelimArg.pat false pZeroElse)).1 = none ∧
    pZeroElse ['x'] 0 = some (0, 0) := by
  decide

/-- C9 counterexample: at block size 0 the initial fill reads zero
units, the reader starts at eof and yields no lines at all, so the
claimed line sequence is not produced for every block size. -/
theorem claim_C9_counterexample :
    linesOfN (mkReadLinesN inputC9 (Delim.lit ['~']) false 0) = [] ∧
    targetC9 ≠ [] := by
  decide

section Lemmas

variable {α : Type}

/-- Plain restatement of streamRead at a natural size. -/
theorem streamRead_natCast (s : List α) (n : Nat) :
    streamRead s (n : Int) = (s.take n, s.drop n) := by
  simp [streamRead]

/-- Reading from an empty stream returns nothing at any size. -/
theorem streamRead_nil (z : Int) : streamRead ([] : List α) z = ([], []) := by
  simp [streamRead]

/-- The ceiling division is positive on a positive numerator. -/
theorem ceilDiv_pos {e : Int} {b : Nat} (he : 0 < e) (hb : 1 ≤ b) :
    1 ≤ ceilDiv e b := by
  unfold ceilDiv
  have hb' : (0 : Int) < (b : Int) := by exact_mod_cast hb
  have h1 : (-e).ediv (b : Int) < 0 := Int.ediv_neg' (by omega) hb'
  omega

/-- litFindFrom returns none exactly when no suffix of s starts with
d. -/
theorem litFindFrom_none_iff [DecidableEq α] {d s : List α} :
    litFindFrom d s = none ↔ ∀ q, ¬ d <+: s.drop q := by
  induction s with
  | nil =>
    simp only [litFindFrom, List.drop_nil]
    by_cases h : d.isPrefixOf ([] : List α)
    · rw [if_pos h]
      have hp : d <+: [] := List.isPrefixOf_iff_prefix.mp h
      simp [hp]
    · rw [if_neg h]
      have hp : ¬ d <+: [] := fun hc =>
        h (List.isPrefixOf_iff_prefix.mpr hc)
      simp [hp]
  | cons a t ih =>
    simp only [litFindFrom]
    by_cases h : d.isPrefixOf (a :: t)
    · rw [if_pos h]
      have hp : d <+: a :: t := List.isPrefixOf_iff_prefix.mp h
      constructor
      · intro hc; cases hc
      · intro hall
        exact absurd hp (by simpa using hall 0)
    · rw [if_neg h]
      have hp : ¬ d <+: a :: t := fun hc =>
        h (List.isPrefixOf_iff_prefix.mpr hc)
      rw [Option.map_eq_none', ih]
      constructor
      · intro hall q
        cases q with
        | zero => simpa using hp
        | succ q => simpa using hall q
      · intro hall q
        simpa using hall (q + 1)

/-- When litFindFrom finds position i, the suffix at i starts with d
and no earlier suffix does. -/
theorem litFindFrom_some [DecidableEq α] {d s : List α} {i : Nat}
    (h : litFindFrom d s = some i) :
    d <+: s.drop i ∧ ∀ q, q < i → ¬ d <+: s.drop q := by
  induction s generalizing i with
  | nil =>
    simp only [litFindFrom] at h
    by_cases hp : d.isPrefixOf ([] : List α)
    · rw [if_pos hp, Option.some_inj] at h
      subst h
      exact ⟨by simpa using List.isPrefixOf_iff_prefix.mp hp, by omega⟩
    · rw [if_neg hp] at h
      cases h
  | cons a t ih =>
    simp only [litFindFrom] at h
    by_cases hp : d.isPrefixOf (a :: t)
    · rw [if_pos hp, Option.some_inj] at h
      subst h
      exact ⟨by simpa using List.isPrefixOf_iff_prefix.mp hp, by omega⟩
    · rw [if_neg hp, Option.map_eq_some'] at h
      obtain ⟨j, hj, hij⟩ := h
      obtain ⟨h1, h2⟩ := ih hj
      subst hij
      refine ⟨by simpa using h1, ?_⟩
      intro q hq
      cases q with
      | zero =>
        intro hc
        exact hp (List.isPrefixOf_iff_prefix.mpr (by simpa using hc))
      | succ q =>
        simpa using h2 q (by omega)

/-- Conversely, the first position whose suffix starts with d is the
value of litFindFrom. -/
theorem litFindFrom_eq_some_of [DecidableEq α] {d s : List α} {i : Nat}
    (h1 : d <+: s.drop i) (h2 : ∀ q, q < i → ¬ d <+: s.drop q) :
    litFindFrom d s = some i := by
  cases hj : litFindFrom d s with
  | none => exact absurd h1 (litFindFrom_none_iff.mp hj i)
  | some j =>
    obtain ⟨hpre, hmin⟩ := litFindFrom_some hj
    rcases Nat.lt_trichotomy i j with hlt | he | hgt
    · exact absurd h1 (hmin i hlt)
    · rw [he]
    · exact absurd hpre (h2 j hgt)

/-- A run short enough to fit inside the first part of an append is a
prefix of the append exactly when it is a prefix of that part. -/
theorem prefix_append_iff_of_le {d a b : List α} (h : d.length ≤ a.length) :
    d <+: a ++ b ↔ d <+: a := by
  constructor
  · intro hp
    exact List.prefix_of_prefix_length_le hp (List.prefix_append a b)
      (by simpa using h)
  · intro hp
    exact hp.trans (List.prefix_append a b)

/-- A non-empty literal splits a sequence into at most as many pieces
as it has units. -/
theorem splitParts_length_le [DecidableEq α] {d : List α} (hd : d ≠ [])
    (s : List α) : (splitParts d s).length ≤ s.length := by
  have H : ∀ n (s : List α), s.length ≤ n →
      (splitParts d s).length ≤ s.length := by
    intro n
    induction n with
    | zero =>
      intro s hs
      have hnil : s = [] := by
        cases s with
        | nil => rfl
        | cons a t => simp at hs
      subst hnil
      simp [splitParts]
    | succ n ih =>
      intro s hs
      rw [splitParts]
      by_cases hse : s.isEmpty
      · simp [hse]
      · rw [dif_neg (by simpa using hse)]
        have hslen : 0 < s.length := by
          cases s with
          | nil => simp at hse
          | cons a t => simp
        cases hfind : litFindFrom d s with
        | none => simpa using hslen
        | some i =>
          have hdlen : ¬ d.length = 0 := by
            cases d with
            | nil => simp at hd
            | cons a t => simp
          simp only [hdlen, dif_neg, not_false_iff]
          have hrec := ih (s.drop (i + d.length))
            (by simp only [List.length_drop]; omega)
          simp only [List.length_cons, List.length_drop] at *
          omega
  exact H s.length s le_rfl

/-- splitParts is empty exactly on the empty sequence. -/
theorem splitParts_eq_nil_iff [DecidableEq α] {d s : List α} :
    splitParts d s = [] ↔ s = [] := by
  constructor
  · intro h
    by_contra hs
    rw [splitParts] at h
    have hse : ¬ s.isEmpty := by
      cases s with
      | nil => exact absurd rfl hs
      | cons a t => simp
    rw [dif_neg (by simpa using hse)] at h
    cases hfind : litFindFrom d s with
    | none => simp [hfind] at h
    | some i =>
      by_cases hdl : d.length = 0 <;> simp [hfind, hdl] at h
  · intro h
    subst h
    simp [splitParts]

/-- The pieces of splitParts concatenate back to the split sequence. -/
theorem splitParts_flatten [DecidableEq α] {d : List α} (hd : d ≠ [])
    (s : List α) : ((splitParts d s).map Prod.fst).flatten = s := by
  have H : ∀ n (s : List α), s.length ≤ n →
      ((splitParts d s).map Prod.fst).flatten = s := by
    intro n
    induction n with
    | zero =>
      intro s hs
      have hnil : s = [] := by
        cases s with
        | nil => rfl
        | cons a t => simp at hs
      subst hnil
      simp [splitParts]
    | succ n ih =>
      intro s hs
      rw [splitParts]
      by_cases hse : s.isEmpty
      · have hnil : s = [] := by
          cases s with
          | nil => rfl
          | cons a t => simp at hse
        simp [hse, hnil]
      · rw [dif_neg (by simpa using hse)]
        have hslen : 0 < s.length := by
          cases s with
          | nil => simp at hse
          | cons a t => simp
        cases hfind : litFindFrom d s with
        | none => simp
        | some i =>
          have hdlen : ¬ d.length = 0 := by
            cases d with
            | nil => simp at hd
            | cons a t => simp
          simp only [hdlen, dif_neg, not_false_iff, List.map_cons,
            List.flatten_cons]
          rw [ih (s.drop (i + d.length))
            (by simp only [List.length_drop]; omega)]
          exact List.take_append_drop _ s
  exact H s.length s le_rfl

end Lemmas

/-- Characterization of the literal-delimiter search loop: starting
from any loop state whose skipped region (positions before the search
index) is known to hold no delimiter occurrence, the loop returns the
head of the specification split of the pending data, and leaves a
state whose pending data splits into the tail. -/
theorem gnl_lit_spec {α : Type} [DecidableEq α] {d : List α} (hd : d ≠ [])
    {bs : Nat} (hbs : 1 ≤ bs) :
    ∀ (fuel : Nat) (buf : List α) (idx sIdx : Nat) (eof : Bool)
      (stream : List α) (res : Option (List α × Nat)) (buf' : List α)
      (idx' : Nat) (eof' : Bool) (stream' : List α),
      idx ≤ sIdx →
      (∀ q, q < sIdx - idx →
        ¬ d <+: ((buf.drop idx ++ (if eof then [] else stream)).drop q)) →
      (if eof then 1 else stream.length + 2) ≤ fuel →
      gnlLoopF (Delim.lit d) bs fuel buf idx sIdx eof stream =
        (res, buf', idx', eof', stream') →
      res = (splitParts d
          (buf.drop idx ++ (if eof then [] else stream))).head? ∧
      splitParts d (buf'.drop idx' ++ (if eof' then [] else stream')) =
        (splitParts d (buf.drop idx ++ (if eof then [] else stream))).tail ∧
      idx' ≤ buf'.length := by
  intro fuel
  induction fuel with
  | zero =>
    intro buf idx sIdx eof stream res buf' idx' eof' stream' hle hJ hfuel heq
    exfalso
    cases eof <;> simp at hfuel
  | succ fuel ih =>
    intro buf idx sIdx eof stream res buf' idx' eof' stream' hle hJ hfuel heq
    have hdpos : 0 < d.length := List.length_pos.mpr hd
    cases hfind : litFindFrom d (buf.drop sIdx) with
    | some q =>
      have hstep : searchStep (Delim.lit d) buf idx sIdx =
          SRes.found (sIdx + q) (sIdx + q + d.length) := by
        simp [searchStep, hfind]
      simp only [gnlLoopF, hstep, Prod.mk.injEq] at heq
      obtain ⟨h1, h2, h3, h4, h5⟩ := heq
      subst h1; subst h2; subst h3; subst h4; subst h5
      obtain ⟨hpre0, hmin0⟩ := litFindFrom_some hfind
      have hpre : d <+: buf.drop (sIdx + q) := by
        rwa [List.drop_drop] at hpre0
      have hmin : ∀ q', q' < q → ¬ d <+: buf.drop (sIdx + q') := by
        intro q' hq'
        have hx := hmin0 q' hq'
        rwa [List.drop_drop] at hx
      have hsqle : sIdx + q ≤ buf.length := by
        by_contra hc
        have hnil : buf.drop (sIdx + q) = [] :=
          List.drop_eq_nil_of_le (by omega)
        rw [hnil] at hpre
        exact hd (List.prefix_nil.mp hpre)
      have hEnd : sIdx + q + d.length ≤ buf.length := by
        have hlen := hpre.length_le
        rw [List.length_drop] at hlen
        omega
      have hPdrop : ∀ q'', q'' ≤ buf.length - idx →
          ((buf.drop idx ++ (if eof then [] else stream)).drop q'') =
            buf.drop (idx + q'') ++ (if eof then [] else stream) := by
        intro q'' hq''
        rw [List.drop_append_of_le_length (by rw [List.length_drop]; omega),
          List.drop_drop]
      have hfound : litFindFrom d
          (buf.drop idx ++ (if eof then [] else stream)) =
            some (sIdx + q - idx) := by
        apply litFindFrom_eq_some_of
        · rw [hPdrop (sIdx + q - idx) (by omega)]
          have hrw : idx + (sIdx + q - idx) = sIdx + q := by omega
          rw [hrw]
          exact hpre.trans (List.prefix_append _ _)
        · intro q' hq'
          rw [hPdrop q' (by omega)]
          by_cases hcase : q' < sIdx - idx
          · have hx := hJ q' hcase
            rwa [hPdrop q' (by omega)] at hx
          · rw [prefix_append_iff_of_le (by rw [List.length_drop]; omega)]
            have hrw : idx + q' = sIdx + (idx + q' - sIdx) := by omega
            rw [hrw]
            exact hmin _ (by omega)
      have hPne : buf.drop idx ++ (if eof then [] else stream) ≠ [] := by
        intro hc
        obtain ⟨hp, _⟩ := litFindFrom_some hfound
        rw [hc] at hp
        simp only [List.drop_nil] at hp
        exact hd (List.prefix_nil.mp hp)
      have hsplit : splitParts d
          (buf.drop idx ++ (if eof then [] else stream)) =
          ((buf.drop idx ++ (if eof then [] else stream)).take
              (sIdx + q - idx + d.length), sIdx + q - idx) ::
            splitParts d ((buf.drop idx ++
              (if eof then [] else stream)).drop
                (sIdx + q - idx + d.length)) := by
        rw [splitParts, dif_neg (by simpa [List.isEmpty_iff] using hPne)]
        simp only [hfound]
        rw [dif_neg (by omega : ¬ d.length = 0)]
      refine ⟨?_, ?_, ?_⟩
      · rw [hsplit]
        simp only [List.head?_cons, Option.some_inj, Prod.mk.injEq]
        constructor
        · rw [List.take_append_of_le_length (by rw [List.length_drop]; omega)]
          unfold pySlice
          rw [List.drop_take]
          congr 1
          omega
        · trivial
      · rw [hsplit]
        simp only [List.tail_cons]
        congr 1
        rw [hPdrop (sIdx + q - idx + d.length) (by omega)]
        congr 2
        omega
      · omega
    | none =>
      have hstep : searchStep (Delim.lit d) buf idx sIdx =
          SRes.cont (d.length - 1) none := by
        simp [searchStep, hfind]
      have hknone : ∀ q'', ¬ d <+: buf.drop (sIdx + q'') := by
        intro q''
        have hx := litFindFrom_none_iff.mp hfind q''
        rwa [List.drop_drop] at hx
      cases eof with
      | true =>
        simp only [gnlLoopF, hstep, if_true] at heq
        have hfnone : litFindFrom d (buf.drop idx) = none := by
          apply litFindFrom_none_iff.mpr
          intro q'
          rw [List.drop_drop]
          by_cases hcase : q' < sIdx - idx
          · have hx := hJ q' hcase
            simpa [List.drop_drop] using hx
          · have hrw : idx + q' = sIdx + (idx + q' - sIdx) := by omega
            rw [hrw]
            exact hknone _
        by_cases hidx : idx < buf.length
        · rw [if_pos hidx] at heq
          simp only [Prod.mk.injEq] at heq
          obtain ⟨h1, h2, h3, h4, h5⟩ := heq
          subst h1; subst h2; subst h3; subst h4; subst h5
          simp only [eq_self_iff_true, if_true]
          have hne : buf.drop idx ≠ [] := by
            intro hc
            have := congrArg List.length hc
            simp only [List.length_drop, List.length_nil] at this
            omega
          have hsplit : splitParts d (buf.drop idx ++ []) =
              [(buf.drop idx, (buf.drop idx).length)] := by
            rw [List.append_nil, splitParts,
              dif_neg (by simpa [List.isEmpty_iff] using hne), hfnone]
          refine ⟨?_, ?_, ?_⟩
          · rw [hsplit]
            simp [List.length_drop]
          · rw [hsplit]
            simp [splitParts]
          · simp
        · rw [if_neg hidx] at heq
          simp only [Prod.mk.injEq] at heq
          obtain ⟨h1, h2, h3, h4, h5⟩ := heq
          subst h1; subst h2; subst h3; subst h4; subst h5
          have hnil : buf.drop idx = [] := List.drop_eq_nil_of_le (by omega)
          rw [hnil]
          simp [splitParts]
      | false =>
        simp only [gnlLoopF, hstep, if_false, Bool.false_eq_true] at heq
        rw [streamRead_natCast] at heq
        have hPeq : (buf.drop idx ++ stream.take bs) ++
            (if (stream.take bs).isEmpty then [] else stream.drop bs) =
              buf.drop idx ++ stream := by
          cases hmore : (stream.take bs).isEmpty with
          | true =>
            have htk : stream.take bs = [] := List.isEmpty_iff.mp hmore
            have hstream : stream = [] := by
              rcases List.take_eq_nil_iff.mp htk with h | h
              · omega
              · exact h
            simp [htk, hstream]
          | false =>
            simp only [Bool.false_eq_true, if_false]
            rw [List.append_assoc, List.take_append_drop]
        have hres := ih (buf.drop idx ++ stream.take bs) 0
          ((buf.drop idx).length - (d.length - 1)) (stream.take bs).isEmpty
          (stream.drop bs) res buf' idx' eof' stream' (by omega) ?_ ?_ heq
        · rw [List.drop_zero, hPeq] at hres
          simpa using hres
        · intro q' hq'
          rw [List.drop_zero, hPeq]
          simp only [Nat.sub_zero] at hq'
          have hqlen : q' + d.length ≤ (buf.drop idx).length := by
            rw [List.length_drop] at hq' ⊢
            omega
          rw [List.drop_append_of_le_length (by omega),
            List.drop_drop]
          by_cases hcase : q' < sIdx - idx
          · have hx := hJ q' hcase
            simp only [Bool.false_eq_true, if_false] at hx
            rwa [List.drop_append_of_le_length (by omega),
              List.drop_drop] at hx
          · rw [prefix_append_iff_of_le
              (by rw [List.length_drop]; rw [List.length_drop] at hqlen; omega)]
            have hrw : idx + q' = sIdx + (idx + q' - sIdx) := by omega
            rw [hrw]
            exact hknone _
        · simp only [Bool.false_eq_true, if_false] at hfuel
          cases hmore : (stream.take bs).isEmpty with
          | true =>
            simp only [eq_self_iff_true, if_true]
            omega
          | false =>
            have hne : stream.take bs ≠ [] := by
              simpa [List.isEmpty_iff] using hmore
            have hslen : 1 ≤ stream.length := by
              cases hstream : stream with
              | nil => simp [hstream] at hne
              | cons a t => simp [hstream]
            simp only [Bool.false_eq_true, if_false, List.length_drop]
            omega

/-- _get_next_line for a literal delimiter: returns the head of the
specification split of the pending data and leaves the tail pending. -/
theorem getNextLine_spec {α : Type} [DecidableEq α] {d : List α}
    (hd : d ≠ []) (r : ReadLines α) (hdelim : r.delimiter = Delim.lit d)
    (hbs : 1 ≤ r.block_size) :
    r.getNextLine.1 = (splitParts d r.pend).head? ∧
    splitParts d r.getNextLine.2.pend = (splitParts d r.pend).tail ∧
    r.getNextLine.2.idx ≤ r.getNextLine.2.buf.length := by
  rcases hout : gnlLoopF (Delim.lit d) r.block_size
      (r.fobj.stream.length + 2) r.buf r.idx r.idx r.eof r.fobj.stream with
    ⟨res, buf', idx', eof', stream'⟩
  have key := gnl_lit_spec hd hbs (r.fobj.stream.length + 2) r.buf r.idx
    r.idx r.eof r.fobj.stream res buf' idx' eof' stream' le_rfl
    (by intro q hq; omega)
    (by cases r.eof <;> simp)
    hout
  simp only [ReadLines.getNextLine, ReadLines.pend, hdelim, hout]
  exact key

/-- _get_next_line changes only the buffer, index, eof flag and stream
remainder of the reader. -/
theorem getNextLine_frame {α : Type} [DecidableEq α] (r : ReadLines α) :
    r.getNextLine.2.fobj.orig = r.fobj.orig ∧
    r.getNextLine.2.fobj.seekable = r.fobj.seekable ∧
    r.getNextLine.2.line = r.line ∧
    r.getNextLine.2.delimiter = r.delimiter ∧
    r.getNextLine.2.strip_delimiter = r.strip_delimiter ∧
    r.getNextLine.2.block_size = r.block_size ∧
    r.getNextLine.2.binary = r.binary :=
  ⟨rfl, rfl, rfl, rfl, rfl, rfl, rfl⟩

/-- next() changes only the buffer, index, eof flag, stream remainder
and cached line of the reader. -/
theorem nextLine_frame {α : Type} [DecidableEq α] (r : ReadLines α) :
    r.nextLine.2.fobj.orig = r.fobj.orig ∧
    r.nextLine.2.fobj.seekable = r.fobj.seekable ∧
    r.nextLine.2.delimiter = r.delimiter ∧
    r.nextLine.2.strip_delimiter = r.strip_delimiter ∧
    r.nextLine.2.block_size = r.block_size ∧
    r.nextLine.2.binary = r.binary := by
  unfold ReadLines.nextLine ReadLines.getLine
  cases hl : r.line with
  | some p =>
    obtain ⟨l, dpos⟩ := p
    simp
  | none =>
    rcases hg : r.getNextLine with ⟨o, r'⟩
    have hf := getNextLine_frame r
    rw [hg] at hf
    obtain ⟨f1, f2, f3, f4, f5, f6, f7⟩ := hf
    cases o with
    | none => simp only []; exact ⟨f1, f2, f4, f5, f6, f7⟩
    | some p =>
      obtain ⟨l, dp⟩ := p
      simp only []
      exact ⟨f1, f2, f4, f5, f6, f7⟩

/-- Consuming lines changes none of the reader's configuration, mode
or reset data. -/
theorem consumeN_frame {α : Type} [DecidableEq α] (n : Nat)
    (r : ReadLines α) :
    (consumeN n r).fobj.orig = r.fobj.orig ∧
    (consumeN n r).fobj.seekable = r.fobj.seekable ∧
    (consumeN n r).delimiter = r.delimiter ∧
    (consumeN n r).strip_delimiter = r.strip_delimiter ∧
    (consumeN n r).block_size = r.block_size ∧
    (consumeN n r).binary = r.binary := by
  induction n generalizing r with
  | zero => exact ⟨rfl, rfl, rfl, rfl, rfl, rfl⟩
  | succ n ih =>
    obtain ⟨i1, i2, i3, i4, i5, i6⟩ := ih r.nextLine.2
    obtain ⟨f1, f2, f3, f4, f5, f6⟩ := nextLine_frame r
    exact ⟨i1.trans f1, i2.trans f2, i3.trans f3, i4.trans f4,
      i5.trans f5, i6.trans f6⟩

/-- next() with no cached line, for a literal delimiter: returns the
formatted head of the specification split of the pending data and
leaves the tail pending with no cached line. -/
theorem nextLine_spec {α : Type} [DecidableEq α] {d : List α} (hd : d ≠ [])
    (r : ReadLines α) (hdelim : r.delimiter = Delim.lit d)
    (hbs : 1 ≤ r.block_size) (hline : r.line = none) :
    r.nextLine.1 =
      ((splitParts d r.pend).head?).map (fmtLine r.strip_delimiter) ∧
    splitParts d r.nextLine.2.pend = (splitParts d r.pend).tail ∧
    r.nextLine.2.line = none := by
  obtain ⟨h1, h2, h3⟩ := getNextLine_spec hd r hdelim hbs
  have hf := (getNextLine_frame r).2.2.1
  unfold ReadLines.nextLine ReadLines.getLine
  rcases hg : r.getNextLine with ⟨o, r'⟩
  rw [hg] at h1 h2 hf
  simp only [hline]
  cases o with
  | none =>
    simp only []
    refine ⟨?_, h2, by rw [hf, hline]⟩
    rw [← h1]
    rfl
  | some p =>
    obtain ⟨l, dp⟩ := p
    simp only []
    refine ⟨?_, ?_, rfl⟩
    · rw [← h1]
      rfl
    · exact h2

/-- Exhausting a reader with a literal delimiter, no cached line and
enough fuel produces exactly the formatted specification split of its
pending data. -/
theorem iterate_spec {α : Type} [DecidableEq α] {d : List α} (hd : d ≠ []) :
    ∀ (fuel : Nat) (r : ReadLines α), r.delimiter = Delim.lit d →
      1 ≤ r.block_size → r.line = none →
      (splitParts d r.pend).length ≤ fuel →
      iterate fuel r = (splitParts d r.pend).map (fmtLine r.strip_delimiter)
    := by
  intro fuel
  induction fuel with
  | zero =>
    intro r h1 h2 h3 h4
    have hnil : splitParts d r.pend = [] :=
      List.eq_nil_of_length_eq_zero (by omega)
    simp [iterate, hnil]
  | succ fuel ih =>
    intro r h1 h2 h3 h4
    obtain ⟨n1, n2, n3⟩ := nextLine_spec hd r h1 h2 h3
    obtain ⟨f1, f2, f3, f4, f5, f6⟩ := nextLine_frame r
    rw [iterate]
    rcases hn : r.nextLine with ⟨o, r'⟩
    rw [hn] at n1 n2 n3 f3 f4 f5
    cases hsp : splitParts d r.pend with
    | nil =>
      rw [hsp] at n1
      simp only [List.head?_nil, Option.map_none'] at n1
      subst n1
      simp [hsp]
    | cons p rest =>
      rw [hsp] at n1 n2 h4
      simp only [List.head?_cons, Option.map_some'] at n1
      subst n1
      simp only [List.tail_cons] at n2
      have hrec := ih r' (by rw [f3, h1]) (by rw [f5]; exact h2) n3
        (by rw [n2]; simp only [List.length_cons] at h4; omega)
      have hstrip : r'.strip_delimiter = r.strip_delimiter := f4
      show fmtLine r.strip_delimiter p :: iterate fuel r' =
        List.map (fmtLine r.strip_delimiter) (p :: rest)
      rw [hrec, n2, hstrip]
      simp

/-- linesOf of a reader with a literal delimiter and no cached line is
the formatted specification split of its pending data (the built-in
fuel suffices). -/
theorem linesOf_spec {α : Type} [DecidableEq α] {d : List α} (hd : d ≠ [])
    (r : ReadLines α) (h1 : r.delimiter = Delim.lit d)
    (h2 : 1 ≤ r.block_size) (h3 : r.line = none) :
    linesOf r = (splitParts d r.pend).map (fmtLine r.strip_delimiter) := by
  apply iterate_spec hd _ r h1 h2 h3
  have hlen := splitParts_length_le hd r.pend
  have hpl : r.pend.length ≤ r.buf.length + r.fobj.stream.length := by
    unfold ReadLines.pend
    cases r.eof <;> simp [List.length_drop] <;> omega
  omega

/-- The pending data of a freshly constructed reader is the whole
stream content, for any positive block size. -/
theorem mkReadLines_pend {α : Type} [DecidableEq α] (content : List α)
    (d : Delim α) (strip : Bool) (bs : Nat) (sk bin : Bool)
    (hb : 1 ≤ bs) :
    (mkReadLines content d strip bs sk bin).pend = content := by
  unfold mkReadLines ReadLines.pend
  cases hc : content with
  | nil => simp
  | cons a t =>
    cases bs with
    | zero => omega
    | succ b =>
      simp only [List.take_succ_cons, List.isEmpty_cons, List.drop_zero]
      simp [List.take_append_drop]

/-- C2, amended: for a fixed input stream and a fixed literal
(str/bytes) delimiter, the line sequence produced by exhausting the
reader is identical for every positive fill block size — in
particular the same at block size 1 and at the large default, also
when a multi-unit literal delimiter is split across two fills.  (The
claim fails as stated for regex-like delimiter objects whose search is
not a function of the stream content, and for block size zero; see the
counterexample.) -/
theorem claim_C2 {α : Type} [DecidableEq α] (content d : List α)
    (strip : Bool) (b₁ b₂ : Nat) (sk₁ bin₁ sk₂ bin₂ : Bool)
    (hd : d ≠ []) (h₁ : 1 ≤ b₁) (h₂ : 1 ≤ b₂) :
    linesOf (mkReadLines content (Delim.lit d) strip b₁ sk₁ bin₁) =
      linesOf (mkReadLines content (Delim.lit d) strip b₂ sk₂ bin₂) := by
  have key : ∀ (b : Nat) (sk bin : Bool), 1 ≤ b →
      linesOf (mkReadLines content (Delim.lit d) strip b sk bin) =
        (splitParts d content).map (fmtLine strip) := by
    intro b sk bin hb
    rw [linesOf_spec hd _ rfl hb rfl, mkReadLines_pend content _ strip b
      sk bin hb]
    rfl
  rw [key b₁ sk₁ bin₁ h₁, key b₂ sk₂ bin₂ h₂]

/-- C2 witness: the amended chunking invariance at a concrete stream,
delimiter and block-size pair. -/
theorem claim_C2_witness :
    linesOf (mkReadLines "aXYbXYc".data (Delim.lit ['X', 'Y']) false 1
        true false) =
      linesOf (mkReadLines "aXYbXYc".data (Delim.lit ['X', 'Y']) false 7
        true false) :=
  claim_C2 "aXYbXYc".data ['X', 'Y'] false 1 7 true false true false
    (by decide) (by decide) (by decide)

/-- C8: on a seekable stream, reset() after consuming any number of
lines restores exactly the just-constructed reader state, so a
subsequent full iteration reproduces the original line sequence; on a
non-seekable stream, reset() signals the error immediately and returns
the state unchanged. -/
theorem claim_C8 {α : Type} [DecidableEq α] (content : List α)
    (d : Delim α) (strip : Bool) (bs : Nat) (bin : Bool) (n : Nat) :
    (consumeN n (mkReadLines content d strip bs true bin)).reset =
      (none, mkReadLines content d strip bs true bin) ∧
    linesOf ((consumeN n (mkReadLines content d strip bs true bin)).reset).2
      = linesOf (mkReadLines content d strip bs true bin) ∧
    (consumeN n (mkReadLines content d strip bs false bin)).reset =
      (some "reset on non-seekable steam object",
        consumeN n (mkReadLines content d strip bs false bin)) := by
  obtain ⟨t1, t2, t3, t4, t5, t6⟩ :=
    consumeN_frame n (mkReadLines content d strip bs true bin)
  obtain ⟨u1, u2, u3, u4, u5, u6⟩ :=
    consumeN_frame n (mkReadLines content d strip bs false bin)
  have hseek : (mkReadLines content d strip bs true bin).fobj.seekable =
      true := rfl
  have hreset : (consumeN n (mkReadLines content d strip bs true
      bin)).reset = (none, mkReadLines content d strip bs true bin) := by
    unfold ReadLines.reset
    rw [if_pos (by rw [t2, hseek])]
    rw [t1, t3, t4, t5, t6]
    simp [mkReadLines]
  refine ⟨hreset, by rw [hreset], ?_⟩
  have hseek2 : (consumeN n (mkReadLines content d strip bs false
      bin)).fobj.seekable = false := by
    rw [u2]
    simp [mkReadLines]
  unfold ReadLines.reset
  rw [hseek2]
  simp

/-- The literal-delimiter search loop signals exhaustion only with the
buffer cleared, the index reset and the eof flag set. -/
theorem gnlLoopF_none_state {α : Type} [DecidableEq α] {dl : Delim α}
    {bs : Nat} :
    ∀ (fuel : Nat) (buf : List α) (idx sIdx : Nat) (eof : Bool)
      (stream : List α) (buf' : List α) (idx' : Nat) (eof' : Bool)
      (stream' : List α),
      (if eof then 1 else stream.length + 2) ≤ fuel →
      gnlLoopF dl bs fuel buf idx sIdx eof stream =
        (none, buf', idx', eof', stream') →
      buf' = [] ∧ idx' = 0 ∧ eof' = true := by
  intro fuel
  induction fuel with
  | zero =>
    intro buf idx sIdx eof stream buf' idx' eof' stream' hfuel heq
    exfalso
    cases eof <;> simp at hfuel
  | succ fuel ih =>
    intro buf idx sIdx eof stream buf' idx' eof' stream' hfuel heq
    cases hstep : searchStep dl buf idx sIdx with
    | found ds e =>
      simp [gnlLoopF, hstep] at heq
    | cont soff dsOpt =>
      cases eof with
      | true =>
        simp only [gnlLoopF, hstep, if_true] at heq
        by_cases hidx : idx < buf.length
        · rw [if_pos hidx] at heq
          simp at heq
        · rw [if_neg hidx] at heq
          simp only [Prod.mk.injEq] at heq
          exact ⟨heq.2.1.symm, heq.2.2.1.symm, heq.2.2.2.1.symm⟩
      | false =>
        simp only [gnlLoopF, hstep, if_false, Bool.false_eq_true] at heq
        rw [streamRead_natCast] at heq
        refine ih _ 0 _ _ _ _ _ _ _ ?_ heq
        simp only [Bool.false_eq_true, if_false] at hfuel
        cases hmore : (stream.take bs).isEmpty with
        | true =>
          simp only [eq_self_iff_true, if_true]
          omega
        | false =>
          have hne : stream.take bs ≠ [] := by
            simpa [List.isEmpty_iff] using hmore
          have hslen : 1 ≤ stream.length := by
            cases hstream : stream with
            | nil => simp [hstream] at hne
            | cons a t => simp [hstream]
          have hbs1 : 1 ≤ bs := by
            cases hbsz : bs with
            | zero => simp [hbsz] at hne
            | succ k => omega
          simp only [Bool.false_eq_true, if_false, List.length_drop]
          omega

/-- On a fully exhausted reader state (empty buffer, index zero, eof
set), _get_next_line signals exhaustion again and leaves the state
untouched, performing no read. -/
theorem getNextLine_exhausted {α : Type} [DecidableEq α]
    (r : ReadLines α) (hwf : WfDelim r.delimiter) (hbuf : r.buf = [])
    (hidx : r.idx = 0) (heof : r.eof = true) :
    r.getNextLine = (none, r) := by
  obtain ⟨⟨st, orig, sk⟩, buf, idx, eof, line, delim, strip, bs, bin⟩ := r
  simp only at hbuf hidx heof hwf
  subst hbuf; subst hidx; subst heof
  unfold ReadLines.getNextLine
  cases delim with
  | lit d =>
    have hd : d ≠ [] := hwf
    have hfind : litFindFrom d ([] : List α) = none := by
      cases d with
      | nil => exact absurd rfl hd
      | cons a t => simp [litFindFrom]
    have hstep : searchStep (Delim.lit d) ([] : List α) 0 0 =
        SRes.cont (d.length - 1) none := by
      simp [searchStep, hfind]
    simp [gnlLoopF, hstep]
  | pat p =>
    cases hp : p [] 0 with
    | none =>
      have hstep : searchStep (Delim.pat p) ([] : List α) 0 0 =
          SRes.cont 0 none := by
        simp [searchStep, hp]
      simp [gnlLoopF, hstep]
    | some se =>
      obtain ⟨s, e⟩ := se
      obtain ⟨hs1, hs2, hs3⟩ := hwf [] 0 s e hp
      simp only [List.length_nil, Nat.le_zero] at hs3
      have hs0 : s = 0 := by omega
      subst hs3; subst hs0
      have hstep : searchStep (Delim.pat p) ([] : List α) 0 0 =
          SRes.cont 0 (some 0) := by
        simp [searchStep, hp]
      simp [gnlLoopF, hstep]

/-- On a fully exhausted reader state, peek with a non-negative size
returns empty and leaves the state untouched, performing no read. -/
theorem peek_exhausted {α : Type} [DecidableEq α] (r : ReadLines α)
    (hbuf : r.buf = []) (hidx : r.idx = 0) (heof : r.eof = true)
    (n : Int) (hn : 0 ≤ n) :
    r.peek (some n) = Except.ok ([], r) := by
  obtain ⟨⟨st, orig, sk⟩, buf, idx, eof, line, delim, strip, bs, bin⟩ := r
  simp only at hbuf hidx heof
  subst hbuf; subst hidx; subst heof
  simp only [ReadLines.peek]
  rw [if_neg (by omega)]
  by_cases h0 : n = 0
  · rw [if_pos h0]
  · rw [if_neg h0]
    simp [peekLoopF]

/-- On a fully exhausted reader state with no cached line, the line
peek returns empty and leaves the state untouched. -/
theorem peekLine_exhausted {α : Type} [DecidableEq α] (r : ReadLines α)
    (hwf : WfDelim r.delimiter) (hbuf : r.buf = []) (hidx : r.idx = 0)
    (heof : r.eof = true) (hline : r.line = none) :
    r.peek none = Except.ok ([], r) := by
  have hg := getNextLine_exhausted r hwf hbuf hidx heof
  unfold ReadLines.peek ReadLines.getLine
  simp [hline, hg]

/-- C10: exhaustion is permanent absent reset.  Once next() has
signaled end-of-stream, yielding the exhausted state (the code clears
the buffer, resets the index and has the eof flag set), every further
next() signals end-of-stream again with the state unchanged, the line
peek returns empty with the state unchanged, and every peek of a
non-negative size returns empty with the state unchanged; since the
state (including the stream remainder) is returned unchanged, no
further read of the underlying stream is performed.  The delimiter is
assumed well-formed as the setter and the re module guarantee. -/
theorem claim_C10 {α : Type} [DecidableEq α] (r r₁ : ReadLines α)
    (hwf : WfDelim r.delimiter) (h : r.nextLine = (none, r₁)) :
    r₁.nextLine = (none, r₁) ∧
    r₁.peek none = Except.ok ([], r₁) ∧
    ∀ n : Int, 0 ≤ n → r₁.peek (some n) = Except.ok ([], r₁) := by
  have hline : r.line = none := by
    cases hl : r.line with
    | none => rfl
    | some p =>
      obtain ⟨l, dp⟩ := p
      unfold ReadLines.nextLine ReadLines.getLine at h
      simp [hl] at h
  have hg : r.getNextLine = (none, r₁) := by
    unfold ReadLines.nextLine ReadLines.getLine at h
    simp only [hline] at h
    rcases hgg : r.getNextLine with ⟨o, r'⟩
    rw [hgg] at h
    cases o with
    | none =>
      simp only [Prod.mk.injEq] at h
      rw [h.2]
    | some p =>
      obtain ⟨l, dp⟩ := p
      simp at h
  have hsnd : r.getNextLine.2 = r₁ := congrArg Prod.snd hg
  have hfst : r.getNextLine.1 = none := congrArg Prod.fst hg
  rcases hout : gnlLoopF r.delimiter r.block_size
      (r.fobj.stream.length + 2) r.buf r.idx r.idx r.eof r.fobj.stream with
    ⟨o2, b2, i2, e2, s2⟩
  have ho2 : o2 = none := by
    have hx : r.getNextLine.1 = o2 := by
      simp only [ReadLines.getNextLine]
      rw [hout]
    rw [hx] at hfst
    exact hfst
  subst ho2
  obtain ⟨hb2, hi2, he2⟩ := gnlLoopF_none_state (r.fobj.stream.length + 2)
    r.buf r.idx r.idx r.eof r.fobj.stream b2 i2 e2 s2
    (by cases r.eof <;> simp) hout
  subst hb2; subst hi2; subst he2
  have hbuf : r₁.buf = [] := by
    rw [← hsnd]
    simp only [ReadLines.getNextLine]
    rw [hout]
  have hidx : r₁.idx = 0 := by
    rw [← hsnd]
    simp only [ReadLines.getNextLine]
    rw [hout]
  have heof : r₁.eof = true := by
    rw [← hsnd]
    simp only [ReadLines.getNextLine]
    rw [hout]
  have hline1 : r₁.line = none := by
    rw [← hsnd]
    exact hline
  have hwf1 : WfDelim r₁.delimiter := by
    rw [← hsnd]
    exact hwf
  have hgex := getNextLine_exhausted r₁ hwf1 hbuf hidx heof
  refine ⟨?_, peekLine_exhausted r₁ hwf1 hbuf hidx heof hline1,
    fun n hn => peek_exhausted r₁ hbuf hidx heof n hn⟩
  unfold ReadLines.nextLine ReadLines.getLine
  simp [hline1, hgex]

/-- C10 witness: after exhausting a concrete one-line reader, next()
keeps signaling end-of-stream and both peeks return empty. -/
theorem claim_C10_witness :
    ((consumeN 1 (mkReadLines ['a'] (Delim.lit ['~']) false 5 true
        false)).nextLine.2).nextLine =
      (none, (consumeN 1 (mkReadLines ['a'] (Delim.lit ['~']) false 5 true
        false)).nextLine.2) ∧
    ((consumeN 1 (mkReadLines ['a'] (Delim.lit ['~']) false 5 true
        false)).nextLine.2).peek (some 3) =
      Except.ok ([], (consumeN 1 (mkReadLines ['a'] (Delim.lit ['~'])
        false 5 true false)).nextLine.2) := by
  have h := claim_C10 (consumeN 1 (mkReadLines ['a'] (Delim.lit ['~'])
      false 5 true false))
    ((consumeN 1 (mkReadLines ['a'] (Delim.lit ['~']) false 5 true
      false)).nextLine.2)
    (by show WfDelim (Delim.lit ['~']); simp [WfDelim])
    (by rfl)
  exact ⟨h.1, h.2.2 3 (by decide)⟩

/-- C3: for a pattern delimiter, a match found at the current position
whose end is not exactly at the buffer end is final — _get_next_line
returns immediately, the line ending at that match end, with no fill
performed (only the consumed index changes).  A match ending exactly
at the buffer end is provisional — the loop records the match start
(relative to the truncated buffer, the new search index is the match
start s - idx), fills one block, and continues the search from there
before deciding.  The span hypotheses are the guarantees the re module
gives for a search started at the consumed index. -/
theorem claim_C3 {α : Type} [DecidableEq α] (r : ReadLines α)
    (p : List α → Nat → Option (Nat × Nat)) (s e : Nat)
    (hdelim : r.delimiter = Delim.pat p)
    (hsearch : p r.buf r.idx = some (s, e)) (hs : r.idx ≤ s)
    (hse : s ≤ e) (he : e ≤ r.buf.length) :
    (e ≠ r.buf.length →
      r.getNextLine = (some (pySlice r.buf r.idx e, s - r.idx),
        { r with idx := e })) ∧
    (e = r.buf.length → r.eof = false →
      r.getNextLine =
        (let X := gnlLoopF (Delim.pat p) r.block_size
            (r.fobj.stream.length + 1)
            (r.buf.drop r.idx ++ r.fobj.stream.take r.block_size) 0
            (s - r.idx) (r.fobj.stream.take r.block_size).isEmpty
            (r.fobj.stream.drop r.block_size);
         (X.1,
          { r with buf := X.2.1, idx := X.2.2.1, eof := X.2.2.2.1, fobj := { r.fobj with stream := X.2.2.2.2 } }))) := by
  constructor
  · intro hne
    have hstep : searchStep (Delim.pat p) r.buf r.idx r.idx =
        SRes.found s e := by
      simp [searchStep, hsearch, hne]
    simp only [ReadLines.getNextLine, hdelim]
    rw [show r.fobj.stream.length + 2 = (r.fobj.stream.length + 1) + 1
      from rfl]
    simp only [gnlLoopF, hstep]
  · intro heq hne
    have hstep : searchStep (Delim.pat p) r.buf r.idx r.idx =
        SRes.cont (e - s) (some s) := by
      simp [searchStep, hsearch, heq]
    simp only [ReadLines.getNextLine, hdelim]
    rw [show r.fobj.stream.length + 2 = (r.fobj.stream.length + 1) + 1
      from rfl]
    simp only [gnlLoopF, hstep, hne, Bool.false_eq_true, if_false]
    rw [streamRead_natCast]
    have harith : (r.buf.drop r.idx).length - (e - s) = s - r.idx := by
      rw [List.length_drop]
      omega
    rw [harith]

/-- C3 witness: with the greedy tilde-run pattern, a run ending inside
the buffer is final (part one, buffer a~b), and a run touching the
buffer end is provisional, making the loop record the match start as
the new search index and fill before deciding (part two, buffer a~
with stream data ~b still pending). -/
theorem claim_C3_witness :
    (mkReadLines "a~b".data (Delim.pat tildeRun) false 10 true
        false).getNextLine =
      (some (pySlice (mkReadLines "a~b".data (Delim.pat tildeRun) false 10
          true false).buf (mkReadLines "a~b".data (Delim.pat tildeRun)
          false 10 true false).idx 2, 1),
        { mkReadLines "a~b".data (Delim.pat tildeRun) false 10 true false
          with idx := 2 }) ∧
    (mkReadLines "a~~b".data (Delim.pat tildeRun) false 2 true
        false).getNextLine =
      (let r := mkReadLines "a~~b".data (Delim.pat tildeRun) false 2 true
          false;
       let X := gnlLoopF (Delim.pat tildeRun) r.block_size
          (r.fobj.stream.length + 1)
          (r.buf.drop r.idx ++ r.fobj.stream.take r.block_size) 0
          (1 - r.idx) (r.fobj.stream.take r.block_size).isEmpty
          (r.fobj.stream.drop r.block_size);
       (X.1,
        { r with buf := X.2.1, idx := X.2.2.1, eof := X.2.2.2.1, fobj := { r.fobj with stream := X.2.2.2.2 } })) := by
  constructor
  · exact (claim_C3 (mkReadLines "a~b".data (Delim.pat tildeRun) false 10
      true false) tildeRun 1 2 rfl (by decide) (by decide) (by decide)
      (by decide)).1 (by decide)
  · exact (claim_C3 (mkReadLines "a~~b".data (Delim.pat tildeRun) false 2
      true false) tildeRun 1 2 rfl (by decide) (by decide) (by decide)
      (by decide)).2 (by decide) (by decide)

/-- C4, amended: after a search that produces no final match, the next
fill truncates the buffer to its unconsumed part (of length L) and the
following search starts at L minus the back-off produced by the failed
search.  The back-off, and hence the re-scanned region, is: for a
literal delimiter, at most the delimiter length minus one, and every
skipped position provably starts no delimiter occurrence however the
buffer is extended; for a pattern delimiter whose match ended exactly
at the buffer end, at most the provisional match length; but for a
pattern delimiter with no match at all, the back-off is the whole
unconsumed buffer, so the following search restarts at its beginning
(the claim as stated omits this case; see the counterexample). -/
theorem claim_C4 {α : Type} [DecidableEq α] :
    (∀ (d buf : List α) (idx : Nat) (ext : List α), d ≠ [] →
      litFindFrom d (buf.drop idx) = none →
      searchStep (Delim.lit d) buf idx idx =
          SRes.cont (d.length - 1) none ∧
        (buf.drop idx).length -
            ((buf.drop idx).length - (d.length - 1)) ≤ d.length - 1 ∧
        (∀ q, q < (buf.drop idx).length - (d.length - 1) →
          ¬ d <+: ((buf.drop idx ++ ext).drop q))) ∧
    (∀ (p : List α → Nat → Option (Nat × Nat)) (buf : List α)
      (idx sIdx s e : Nat), p buf sIdx = some (s, e) → e = buf.length →
      searchStep (Delim.pat p) buf idx sIdx =
          SRes.cont (e - s) (some s) ∧
        (buf.drop idx).length -
            ((buf.drop idx).length - (e - s)) ≤ e - s) ∧
    (∀ (p : List α → Nat → Option (Nat × Nat)) (buf : List α)
      (idx sIdx : Nat), p buf sIdx = none →
      searchStep (Delim.pat p) buf idx sIdx =
          SRes.cont (buf.length - idx) none ∧
        (buf.drop idx).length -
            ((buf.drop idx).length - (buf.length - idx)) =
          (buf.drop idx).length) := by
  refine ⟨?_, ?_, ?_⟩
  · intro d buf idx ext hd hnone
    refine ⟨by simp [searchStep, hnone], by omega, ?_⟩
    intro q hq
    have hdpos : 0 < d.length := List.length_pos.mpr hd
    have hqlen : q + d.length ≤ (buf.drop idx).length := by omega
    rw [List.drop_append_of_le_length (by omega)]
    rw [prefix_append_iff_of_le (by rw [List.length_drop]; omega)]
    exact litFindFrom_none_iff.mp hnone q
  · intro p buf idx sIdx s e hp he
    refine ⟨?_, by omega⟩
    simp [searchStep, hp, he]
  · intro p buf idx sIdx hp
    refine ⟨by simp [searchStep, hp], ?_⟩
    rw [List.length_drop]
    omega

/-- C4 witness: the amended back-off laws at concrete instances —
literal XY with no occurrence in the buffer (back-off 1, skipped
positions safe for any extension), a greedy tilde-run match touching
the buffer end (back-off is the match length 2), and a pattern with no
match in a ten-unit buffer (the whole unconsumed buffer is
re-searched). -/
theorem claim_C4_witness :
    (searchStep (Delim.lit ['X', 'Y']) "abcX".data 0 0 =
        SRes.cont 1 none ∧
      ("abcX".data.drop 0).length -
          (("abcX".data.drop 0).length - 1) ≤ 1 ∧
      (∀ q, q < ("abcX".data.drop 0).length - 1 →
        ¬ ['X', 'Y'] <+: (("abcX".data.drop 0 ++ "Yz".data).drop q))) ∧
    (searchStep (Delim.pat tildeRun) "a~~".data 0 0 =
        SRes.cont 2 (some 1) ∧
      ("a~~".data.drop 0).length - (("a~~".data.drop 0).length - 2) ≤ 2) ∧
    (searchStep (Delim.pat pAB) (List.replicate 10 'c') 3 3 =
        SRes.cont (10 - 3) none ∧
      ((List.replicate 10 'c').drop 3).length -
          (((List.replicate 10 'c').drop 3).length - (10 - 3)) =
        ((List.replicate 10 'c').drop 3).length) := by
  refine ⟨?_, ?_, ?_⟩
  · exact (claim_C4.1 ['X', 'Y'] "abcX".data 0 "Yz".data (by decide)
      (by decide))
  · exact (claim_C4.2.1 tildeRun "a~~".data 0 0 1 3 (by decide)
      (by decide))
  · exact (claim_C4.2.2 pAB (List.replicate 10 'c') 3 3 (by decide))

/-- C7, amended: assigning the delimiter raises a configuration error
for an empty literal, for a literal whose runtime type (bytes versus
str) does not match the stream mode, for a pattern object whose search
raises TypeError on the probe text of the stream mode, for a pattern
whose search on the probe text test returns a zero-length match, and
for a value of any other type; in every failing case the returned
state is the untouched input state, so the previously set delimiter
remains in place and no buffer state changes.  (The code only probes
patterns on the text test, so a pattern that can match zero length
elsewhere but not on the probe is accepted; see the counterexample.) -/
theorem claim_C7 {α : Type} [DecidableEq α] [TestText α]
    (r : ReadLines α) :
    (∀ ib : Bool, setDelimiter r (DelimArg.lit ib []) =
      (some "non-zero match delimiter is required", r)) ∧
    (∀ (ib : Bool) (d : List α), d ≠ [] → ib ≠ r.binary →
      setDelimiter r (DelimArg.lit ib d) =
        (some "delimiter type must match stream mode", r)) ∧
    (∀ p : List α → Nat → Option (Nat × Nat),
      setDelimiter r (DelimArg.pat true p) =
        (some "delimiter type must match stream mode", r)) ∧
    (∀ (p : List α → Nat → Option (Nat × Nat)) (s : Nat),
      p (TestText.text) 0 = some (s, s) →
      setDelimiter r (DelimArg.pat false p) =
        (some "non-zero match delimiter is required", r)) ∧
    (setDelimiter r DelimArg.other =
      (some "unknown type of delimiter", r)) := by
  refine ⟨?_, ?_, ?_, ?_, rfl⟩
  · intro ib
    rfl
  · intro ib d hne hib
    simp only [setDelimiter]
    rw [if_neg (by simpa [List.isEmpty_iff] using hne), if_pos hib]
  · intro p
    rfl
  · intro p s hp
    simp only [setDelimiter]
    rw [if_neg (by simp)]
    simp [hp]

/-- C7 witness: the amended setter behavior at concrete inputs — an
empty literal, a bytes literal on a text-mode reader, a pattern whose
probe search raises TypeError, a pattern whose probe search matches
zero length, and an unknown value, each rejected with the reader state
returned unchanged. -/
theorem claim_C7_witness :
    (setDelimiter (mkReadLines ['x'] (Delim.lit ['~']) false 1 true false)
        (DelimArg.lit true []) =
      (some "non-zero match delimiter is required",
        mkReadLines ['x'] (Delim.lit ['~']) false 1 true false)) ∧
    (setDelimiter (mkReadLines ['x'] (Delim.lit ['~']) false 1 true false)
        (DelimArg.lit true ['y']) =
      (some "delimiter type must match stream mode",
        mkReadLines ['x'] (Delim.lit ['~']) false 1 true false)) ∧
    (setDelimiter (mkReadLines ['x'] (Delim.lit ['~']) false 1 true false)
        (DelimArg.pat true tildeRun) =
      (some "delimiter type must match stream mode",
        mkReadLines ['x'] (Delim.lit ['~']) false 1 true false)) ∧
    (setDelimiter (mkReadLines ['x'] (Delim.lit ['~']) false 1 true false)
        (DelimArg.pat false pZeroProbe) =
      (some "non-zero match delimiter is required",
        mkReadLines ['x'] (Delim.lit ['~']) false 1 true false)) := by
  have h := claim_C7 (mkReadLines ['x'] (Delim.lit ['~']) false 1 true
    false)
  exact ⟨h.1 true, h.2.1 true ['y'] (by decide) (by decide),
    h.2.2.1 tildeRun, h.2.2.2.1 pZeroProbe 0 (by decide)⟩

/-- The peek fill loop returns a buffer whose prefix of the requested
size is exactly the prefix of the pending data of that size: reads
only append stream data in order, and the loop only stops short of the
request when the data genuinely ran out or the request is already
covered. -/
theorem peekLoopF_take {α : Type} [DecidableEq α] {bs : Nat}
    (hbs : 1 ≤ bs) (size : Nat) :
    ∀ (fuel : Nat) (buf : List α) (eof : Bool) (stream : List α),
      (if eof then 1 else stream.length + 2) ≤ fuel →
      (peekLoopF bs size fuel buf eof stream).1.take size =
        (buf ++ (if eof then [] else stream)).take size := by
  intro fuel
  induction fuel with
  | zero =>
    intro buf eof stream hfuel
    exfalso
    cases eof <;> simp at hfuel
  | succ fuel ih =>
    intro buf eof stream hfuel
    cases eof with
    | true =>
      rw [peekLoopF, if_pos (Or.inl rfl)]
      simp
    | false =>
      by_cases hex : ((size : Int) - buf.length) = 0
      · rw [peekLoopF, if_pos (Or.inr hex)]
        have hsz : size ≤ buf.length := by omega
        simp only [Bool.false_eq_true, if_false]
        rw [List.take_append_of_le_length hsz]
      · rw [peekLoopF, if_neg (by simp [hex])]
        show (if (streamRead stream (ceilDiv ((size : Int) - buf.length)
                bs * bs)).1.isEmpty = true
              then (buf, true, (streamRead stream (ceilDiv ((size : Int) -
                buf.length) bs * bs)).2)
              else peekLoopF bs size fuel (buf ++ (streamRead stream
                (ceilDiv ((size : Int) - buf.length) bs * bs)).1) false
                (streamRead stream (ceilDiv ((size : Int) - buf.length)
                  bs * bs)).2).1.take size =
            (buf ++ (if false = true then [] else stream)).take size
        simp only [Bool.false_eq_true, if_false, List.length_drop] at hfuel
        by_cases htr : ceilDiv ((size : Int) - buf.length) bs * bs < 0
        · have hrd : streamRead stream
              (ceilDiv ((size : Int) - buf.length) bs * bs) =
                (stream, []) := by
            simp [streamRead, htr]
          rw [hrd]
          cases hstream : stream with
          | nil =>
            simp
          | cons a t =>
            have hne : ¬ ((a :: t).isEmpty = true) := by simp
            rw [if_neg hne]
            have hrec := ih (buf ++ a :: t) false []
              (by rw [hstream] at hfuel; simp at hfuel ⊢; omega)
            simp only [Bool.false_eq_true, if_false] at hrec
            rw [hrec]
            simp
        · have hrd : streamRead stream
              (ceilDiv ((size : Int) - buf.length) bs * bs) =
                (stream.take (ceilDiv ((size : Int) - buf.length) bs *
                  bs).toNat,
                 stream.drop (ceilDiv ((size : Int) - buf.length) bs *
                  bs).toNat) := by
            simp [streamRead, htr]
          rw [hrd]
          by_cases hmt : (stream.take (ceilDiv ((size : Int) -
              buf.length) bs * bs).toNat).isEmpty
          · rw [if_pos hmt]
            have htk : stream.take (ceilDiv ((size : Int) - buf.length)
                bs * bs).toNat = [] := List.isEmpty_iff.mp hmt
            rcases List.take_eq_nil_iff.mp htk with hz | hz
            · have hle : size ≤ buf.length := by
                by_contra hgt
                have hpos : 0 < (size : Int) - buf.length := by omega
                have hcd := ceilDiv_pos hpos hbs
                have : (1 : Int) ≤ ceilDiv ((size : Int) - buf.length)
                    bs * bs := by
                  calc (1 : Int) = 1 * 1 := by omega
                  _ ≤ ceilDiv ((size : Int) - buf.length) bs * bs := by
                      apply mul_le_mul hcd (by exact_mod_cast hbs)
                        (by omega)
                      omega
                omega
              simp only [Bool.false_eq_true, if_false]
              rw [List.take_append_of_le_length hle]
            · subst hz
              simp
          · rw [if_neg hmt]
            have hne : stream.take (ceilDiv ((size : Int) - buf.length)
                bs * bs).toNat ≠ [] := by
              simpa [List.isEmpty_iff] using hmt
            have htn : 1 ≤ (ceilDiv ((size : Int) - buf.length) bs *
                bs).toNat := by
              rcases Nat.eq_zero_or_pos (ceilDiv ((size : Int) -
                  buf.length) bs * bs).toNat with hz | hp
              · rw [hz] at hne
                simp at hne
              · omega
            have hsne : stream ≠ [] := by
              intro hc
              rw [hc] at hne
              simp at hne
            have hslen : 1 ≤ stream.length := by
              cases hstream : stream with
              | nil => exact absurd hstream hsne
              | cons a t => simp [hstream]
            have hrec := ih
              (buf ++ stream.take (ceilDiv ((size : Int) - buf.length)
                bs * bs).toNat) false
              (stream.drop (ceilDiv ((size : Int) - buf.length) bs *
                bs).toNat)
              (by
                simp only [Bool.false_eq_true, if_false, List.length_drop]
                omega)
            simp only [Bool.false_eq_true, if_false] at hrec
            rw [hrec, List.append_assoc, List.take_append_drop]
            simp

/-- peek with a non-negative size returns exactly that many units of
the pending data (fewer only when the data runs out), as a prefix of
the resulting state's pending data, and changes no configuration and
no cached line. -/
theorem peek_spec {α : Type} [DecidableEq α] (r : ReadLines α)
    (hbs : 1 ≤ r.block_size) (n : Int) (hn : 0 ≤ n) :
    peekVal r n = r.pend.take n.toNat ∧
    peekVal r n <+: (afterPeek r n).pend ∧
    (afterPeek r n).delimiter = r.delimiter ∧
    (afterPeek r n).block_size = r.block_size ∧
    (afterPeek r n).line = r.line ∧
    (afterPeek r n).strip_delimiter = r.strip_delimiter := by
  by_cases h0 : n = 0
  · subst h0
    have hpeek : r.peek (some 0) = Except.ok ([], r) := by
      simp [ReadLines.peek]
    unfold peekVal afterPeek
    rw [hpeek]
    exact ⟨by simp, List.nil_prefix, rfl, rfl, rfl, rfl⟩
  · rcases hout : peekLoopF r.block_size n.toNat
        (r.fobj.stream.length + 2) (r.buf.drop r.idx) r.eof
        r.fobj.stream with ⟨b1, e1, s1⟩
    have hpeek : r.peek (some n) = Except.ok (b1.take n.toNat,
        { r with buf := b1, idx := 0, eof := e1, fobj := { r.fobj with stream := s1 } }) := by
      simp only [ReadLines.peek, hout]
      rw [if_neg (by omega), if_neg h0]
    have htake := peekLoopF_take hbs n.toNat (r.fobj.stream.length + 2)
      (r.buf.drop r.idx) r.eof r.fobj.stream (by cases r.eof <;> simp)
    rw [hout] at htake
    unfold peekVal afterPeek
    rw [hpeek]
    refine ⟨htake, ?_, rfl, rfl, rfl, rfl⟩
    show b1.take n.toNat <+: ReadLines.pend _
    unfold ReadLines.pend
    simp only [List.drop_zero]
    exact (List.take_prefix _ _).trans (List.prefix_append _ _)

/-- The line peek does not consume the pending line logically — the
cached line concatenated with the resulting pending data restores the
whole pending data — but it does advance the buffer cursor past the
cached line, caching it instead. -/
theorem peekLine_spec {α : Type} [DecidableEq α] {d : List α}
    (hd : d ≠ []) (r : ReadLines α) (hdelim : r.delimiter = Delim.lit d)
    (hbs : 1 ≤ r.block_size) (hline : r.line = none)
    (hstrip : r.strip_delimiter = false) :
    peekLineVal r ++ (afterPeekLine r).pend = r.pend ∧
    (afterPeekLine r).block_size = r.block_size := by
  obtain ⟨h1, h2, h3⟩ := getNextLine_spec hd r hdelim hbs
  have hfr := getNextLine_frame r
  unfold peekLineVal afterPeekLine ReadLines.getLine
  rcases hg : r.getNextLine with ⟨o, r1⟩
  simp only [hg] at h1 h2 hfr
  simp only [hline]
  cases o with
  | none =>
    simp only []
    have hsp : splitParts d r.pend = [] := by
      cases hsp : splitParts d r.pend with
      | nil => rfl
      | cons p rest =>
        rw [hsp] at h1
        simp at h1
    have hpe : r.pend = [] := splitParts_eq_nil_iff.mp hsp
    have hpe1 : r1.pend = [] := by
      apply splitParts_eq_nil_iff.mp
      rw [h2, hsp]
      rfl
    constructor
    · simp [hpe, hpe1]
    · exact hfr.2.2.2.2.2.1
  | some p =>
    obtain ⟨l, dp⟩ := p
    simp only []
    constructor
    · rw [hstrip]
      simp only [Bool.false_eq_true, if_false, Option.getD_some]
      show l ++ r1.pend = r.pend
      cases hsp : splitParts d r.pend with
      | nil =>
        rw [hsp] at h1
        simp at h1
      | cons q rest =>
        rw [hsp] at h1 h2
        simp only [List.head?_cons, Option.some_inj] at h1
        simp only [List.tail_cons] at h2
        have hfl := splitParts_flatten hd r.pend
        rw [hsp] at hfl
        simp only [List.map_cons, List.flatten_cons] at hfl
        have hfl1 := splitParts_flatten hd r1.pend
        rw [h2] at hfl1
        rw [← h1] at hfl
        rw [hfl1] at hfl
        exact hfl
    · exact hfr.2.2.2.2.2.1

/-- C6, amended: for n at least 0, on a reader with a positive block
size, a literal delimiter, no cached line and the delimiter not
stripped, peek(n) returns exactly the first n units of the pending
data (fewer only when the data runs out), and this is a prefix of the
concatenation of the lines still to be returned by future next()
calls.  With stripping enabled the returned lines omit their
delimiters, so the raw peeked data need not be a prefix of their
concatenation; that case is therefore excluded.  But peek() of a line
advances the
buffer cursor past the peeked line while caching it: the cached line
concatenated with the new pending data restores the old pending data,
and a peek(n) issued immediately after the line peek (with no
intervening next()) therefore returns the units following that pending
line, not its initial units (see the counterexample). -/
theorem claim_C6 {α : Type} [DecidableEq α] {d : List α} (hd : d ≠ [])
    (r : ReadLines α) (hdelim : r.delimiter = Delim.lit d)
    (hbs : 1 ≤ r.block_size) (hline : r.line = none)
    (hstrip : r.strip_delimiter = false) (n : Int) (hn : 0 ≤ n) :
    peekVal r n = r.pend.take n.toNat ∧
    peekVal r n <+: (linesOf (afterPeek r n)).flatten ∧
    peekLineVal r ++ (afterPeekLine r).pend = r.pend ∧
    peekVal (afterPeekLine r) n = (afterPeekLine r).pend.take n.toNat := by
  obtain ⟨p1, p2, p3, p4, p5, p6⟩ := peek_spec r hbs n hn
  obtain ⟨q1, q2⟩ := peekLine_spec hd r hdelim hbs hline hstrip
  refine ⟨p1, ?_, q1, ?_⟩
  · have hls := linesOf_spec hd (afterPeek r n) (by rw [p3, hdelim])
      (by rw [p4]; exact hbs) (by rw [p5, hline])
    rw [hls]
    have hfmt : fmtLine (α := α) (afterPeek r n).strip_delimiter =
        Prod.fst := by
      rw [p6, hstrip]
      funext pr
      rfl
    rw [hfmt, splitParts_flatten hd]
    exact p2
  · exact (peek_spec (afterPeekLine r) (by rw [q2]; exact hbs) n hn).1

/-- C6 witness: the amended peek behavior on a concrete reader. -/
theorem claim_C6_witness :
    peekVal (mkReadLines "ab~cd~e".data (Delim.lit ['~']) false 3 true
        false) 2 =
      (mkReadLines "ab~cd~e".data (Delim.lit ['~']) false 3 true
        false).pend.take (2 : Int).toNat ∧
    peekVal (mkReadLines "ab~cd~e".data (Delim.lit ['~']) false 3 true
        false) 2 <+:
      (linesOf (afterPeek (mkReadLines "ab~cd~e".data (Delim.lit ['~'])
        false 3 true false) 2)).flatten ∧
    peekLineVal (mkReadLines "ab~cd~e".data (Delim.lit ['~']) false 3
        true false) ++
      (afterPeekLine (mkReadLines "ab~cd~e".data (Delim.lit ['~']) false
        3 true false)).pend =
        (mkReadLines "ab~cd~e".data (Delim.lit ['~']) false 3 true
          false).pend ∧
    peekVal (afterPeekLine (mkReadLines "ab~cd~e".data (Delim.lit ['~'])
        false 3 true false)) 2 =
      (afterPeekLine (mkReadLines "ab~cd~e".data (Delim.lit ['~']) false
        3 true false)).pend.take (2 : Int).toNat :=
  claim_C6 (d := ['~']) (by decide)
    (mkReadLines "ab~cd~e".data (Delim.lit ['~']) false 3 true false)
    rfl (by decide) rfl rfl 2 (by decide)

/-- Reading from an exhausted normalizing reader returns nothing and
leaves it exhausted, for any requested size. -/
theorem NReader_read_nil (z : Int) :
    NReader.read { stream := [], prevExtra := [] } z =
      ([], { stream := [], prevExtra := [] }) := by
  simp [NReader.read, streamRead_nil, scanLoopF, nfc]

/-- The C9 input holds nine characters. -/
theorem inputC9_length : inputC9.length = 9 := by decide

/-- At any block size of at least nine, the initial fill of the
normalizing reader absorbs the whole C9 input: the read-ahead finds no
data, the carry-over stays empty, and NFC composes the combining pair
into U+00F6. -/
theorem mkReadLinesN_large {b : Nat} (hb : 9 ≤ b) :
    mkReadLinesN inputC9 (Delim.lit ['~']) false b =
      { src := { stream := [], prevExtra := [] },
        buf := ['a', 'b', 'c', 'ö', '~', 'a', 'b', 'c'], idx := 0,
        eof := false, line := none, delimiter := Delim.lit ['~'],
        strip_delimiter := false, block_size := b } := by
  have htk : inputC9.take b = inputC9 :=
    List.take_of_length_le (by rw [inputC9_length]; omega)
  have hdp : inputC9.drop b = [] :=
    List.drop_eq_nil_of_le (by rw [inputC9_length]; omega)
  have hnfc : nfc inputC9 = ['a', 'b', 'c', 'ö', '~', 'a', 'b', 'c'] := by
    decide
  have hread : NReader.read { stream := inputC9, prevExtra := [] }
      (b : Int) =
      (['a', 'b', 'c', 'ö', '~', 'a', 'b', 'c'],
        { stream := [], prevExtra := [] }) := by
    simp [NReader.read, streamRead_natCast, htk, hdp, streamRead_nil,
      scanLoopF, hnfc]
  simp [mkReadLinesN, hread]

/-- C9, amended: with normalization form NFC, for the input abco
followed by the combining diaeresis U+0308 and ~abc, with delimiter ~,
the reader yields the lines abc U+00F6 ~ and abc for every positive
block size, identical to normalizing the entire original text at once
(at block size zero the initial fill is empty and the reader yields
nothing; see the counterexample). -/
theorem claim_C9 (b : Nat) (hb : 1 ≤ b) :
    linesOfN (mkReadLinesN inputC9 (Delim.lit ['~']) false b) =
      targetC9 := by
  by_cases hble : b ≤ 8
  · interval_cases b <;> decide
  · have hb9 : 9 ≤ b := by omega
    rw [mkReadLinesN_large hb9]
    have hread := NReader_read_nil (b : Int)
    simp +decide [linesOfN, iterateN, ReadLinesN.nextLine,
      ReadLinesN.getNextLine, gnlLoopN, searchStep, litFindFrom, hread,
      pySlice, targetC9]

/-- C9 witness: block size four forces the read boundary right after
the o, straddling the combining diaeresis, and the reader still yields
the target lines. -/
theorem claim_C9_witness :
    linesOfN (mkReadLinesN inputC9 (Delim.lit ['~']) false 4) =
      targetC9 :=
  claim_C9 4 (by decide)
